import Mathlib

/-!
# Verification of `propositions/syntax.py`

A shallow embedding of the propositional-formula library
`src/propositions/syntax.py` (symbol classifiers, the `Formula` tree, the
infix recursive-descent parser, the Polish-notation parser, and the
substitution engine), together with theorems settling the specification's
claims about it.

Strings are embedded as `List Char`.  Python exceptions (`IndexError`,
`ValueError`, failed `assert`) are embedded as `Option`/`Except` failure
values.  The infix parser's recursion is on a suffix of its input, which is
not structural, so it is written with an explicit fuel parameter; the
entry points run it with fuel `length + 1`, which the completeness lemmas
show is always sufficient on the inputs the claims quantify over.
-/

namespace Propositions

/-- `String` literals as `List Char`, the carrier used throughout. -/
def str (s : String) : List Char := s.toList

/-- One character of Python's `str.isdecimal` (ASCII decimal digits). -/
def isDecChar (c : Char) : Bool := '0' ≤ c && c ≤ '9'

/-! ## Symbol classifiers (`is_variable`, `is_constant`, `is_unary`, `is_binary`) -/

/-- `is_variable(string)` embedded exception-transparently: the source reads
`string[0]`, which raises `IndexError` on the empty string, so the result is
`Option Bool` with `none` for that failure.  Otherwise it is
`string[0] >= 'p' and string[0] <= 'z' and (len(string) == 1 or
string[1:].isdecimal())`. -/
def is_variableT : List Char → Option Bool
  | [] => none
  | c :: rest =>
      some (('p' ≤ c && c ≤ 'z') && (rest == [] || rest.all isDecChar))

/-- `is_variable(string)` at the internal call sites, all of which pass a
nonempty string (where `is_variableT` never fails); extended by `false` on
`[]` so it can be used as a plain `Bool` predicate. -/
def is_variable (s : List Char) : Bool := (is_variableT s).getD false

/-- `is_constant(string)`: `string == 'T' or string == 'F'`. -/
def is_constant (s : List Char) : Bool := s == ['T'] || s == ['F']

/-- `is_unary(string)`: `string == '~'`. -/
def is_unary (s : List Char) : Bool := s == ['~']

/-- `is_binary(string)`: `string == '&' or string == '|' or string == '->'`. -/
def is_binary (s : List Char) : Bool :=
  s == ['&'] || s == ['|'] || s == ['-', '>']

/-! ## The `Formula` tree

The Python class stores `root`, optional `now`, optional `next`; its
constructor admits exactly three shapes (no operands for a variable or
constant root, `now` only for a unary root, both operands for a binary
root — anything else fails an `assert`).  Since the class is `@frozen`,
every reachable `Formula` object has one of those shapes, so the embedding
is a three-variant tree; the classifier side conditions of the constructor
are the `valid` predicate below. -/

inductive Formula where
  | atom (root : List Char)
  | unary (root : List Char) (now : Formula)
  | binary (root : List Char) (now : Formula) (next : Formula)
  deriving DecidableEq

namespace Formula

/-- The constructor's `assert`s: a `Formula` value that could actually be
built by `Formula.__init__` (applied hereditarily to the operands). -/
def valid : Formula → Bool
  | atom r => is_variable r || is_constant r
  | unary r f => is_unary r && valid f
  | binary r f g => is_binary r && valid f && valid g

/-- `Formula.__repr__`: a constant or variable prints as its root, a unary
node as root followed by the operand, a binary node fully parenthesized.
(The source dispatches on the classifier applied to `self.root`; by the
constructor invariant that classification coincides with the node shape.) -/
def rep : Formula → List Char
  | atom r => r
  | unary r f => r ++ rep f
  | binary r f g => '(' :: (rep f ++ r ++ rep g ++ [')'])

/-- `Formula.polish`: prefix notation, root then operands, no separators. -/
def polish : Formula → List Char
  | atom r => r
  | unary r f => r ++ polish f
  | binary r f g => r ++ polish f ++ polish g

/-- `Formula.variables`: the set of variable names in the tree. -/
def variablesL : Formula → List (List Char)
  | atom r => if is_constant r then [] else [r]
  | unary _ f => variablesL f
  | binary _ f g => variablesL f ++ variablesL g

/-- `Formula.__eq__` between two `Formula` objects (the `isinstance` test
holds): `str(self) == str(other)`, character identity of the canonical
serializations. -/
def eqb (f g : Formula) : Bool := rep f == rep g

end Formula

/-! ## The infix recursive-descent parser (`Formula._parse_prefix`) -/

/-- The candidate operator list scanned by `_parse_prefix` after operand 1:
`['<->', '-&', '->', '-|', '&', '|', '+']`, in source order. -/
def opCandidates : List (List Char) :=
  [['<', '-', '>'], ['-', '&'], ['-', '>'], ['-', '|'], ['&'], ['|'], ['+']]

/-- The `for i in [...]: if ost.startswith(i)` loop: the first candidate
that is a prefix of `s`, together with the rest of `s` after it. -/
def findOp : List (List Char) → List Char → Option (List Char × List Char)
  | [], _ => none
  | c :: cs, s =>
      if c.isPrefixOf s then some (c, s.drop c.length) else findOp cs s

/-- `Formula._parse_prefix`, with fuel.  Returns the parsed formula (or
`none`) and the unconsumed suffix (or, on failure, the diagnostic message,
exactly as the source puts the message in the second slot of the pair). -/
def parsePrefixF : Nat → List Char → Option Formula × List Char
  | 0, _ => (none, str "fuel")
  | n + 1, s =>
    match s with
    | [] => (none, str "End of input")
    | c :: rest =>
      if is_constant [c] then (some (.atom [c]), rest)
      else if c = '(' then
        match parsePrefixF n rest with
        | (none, ost) => (none, ost)
        | (some now, ost) =>
          if ost = [] then (none, str "Missing operator")
          else
            match findOp opCandidates ost with
            | none => (none, str "Invalid operator")
            | some (op, ost1) =>
              if is_binary op then
                match parsePrefixF n ost1 with
                | (none, ost2) => (none, ost2)
                | (some nxt, ost2) =>
                  match ost2 with
                  | ')' :: tail => (some (.binary op now nxt), tail)
                  | _ => (none, str "Not closed")
              else (none, str "Invalid operator")
      else if c = '~' then
        match parsePrefixF n rest with
        | (none, ost) => (none, ost)
        | (some leaf, ost) => (some (.unary ['~'] leaf), ost)
      else if 'p' ≤ c && c ≤ 'z' then
        let res := c :: rest.takeWhile isDecChar
        if is_variable res then (some (.atom res), rest.dropWhile isDecChar)
        else (none, str "Invalid")
      else (none, str "Invalid pref")

/-- `Formula._parse_prefix` proper: the fuel `length + 1` always suffices
(established by `parsePrefixF_stable` and the completeness lemmas). -/
def parsePre (s : List Char) : Option Formula × List Char :=
  parsePrefixF (s.length + 1) s

namespace Formula

/-- `Formula.is_formula`: the prefix parse succeeds and leaves nothing. -/
def is_formula (s : List Char) : Bool :=
  let r := parsePre s
  r.1.isSome && r.2 == []

/-- `Formula.parse`: asserts `is_formula` and returns the parsed tree;
the assertion failure on invalid input is embedded as `none`. -/
def parse (s : List Char) : Option Formula :=
  match parsePre s with
  | (some f, []) => some f
  | _ => none

end Formula

/-! ## The Polish-notation parser (`Formula.parse_polish`) -/

/-- The tokenization loop of `parse_polish`, with fuel (each token consumes
at least one character, so fuel `length + 1` always suffices): left to
right, single-character tokens for constants, `~`, `&`, `|`, `+`;
multi-character operators tried in source order (`<->`, `->`, `-&`, `-|`);
maximal-munch variables; any other character raises
`ValueError('Invalid symbol')`. -/
def tokenizeF : Nat → List Char → Except String (List (List Char))
  | 0, _ => .error "fuel"
  | _ + 1, [] => .ok []
  | n + 1, c :: rest =>
    if c = 'T' || c = 'F' then (tokenizeF n rest).map (List.cons [c])
    else if c = '~' then (tokenizeF n rest).map (List.cons ['~'])
    else if c = '&' || c = '|' || c = '+' then
      (tokenizeF n rest).map (List.cons [c])
    else if List.isPrefixOf ['<', '-', '>'] (c :: rest) then
      (tokenizeF n (rest.drop 2)).map (List.cons ['<', '-', '>'])
    else if List.isPrefixOf ['-', '>'] (c :: rest) then
      (tokenizeF n (rest.drop 1)).map (List.cons ['-', '>'])
    else if List.isPrefixOf ['-', '&'] (c :: rest) then
      (tokenizeF n (rest.drop 1)).map (List.cons ['-', '&'])
    else if List.isPrefixOf ['-', '|'] (c :: rest) then
      (tokenizeF n (rest.drop 1)).map (List.cons ['-', '|'])
    else if 'p' ≤ c && c ≤ 'z' then
      let leaf := c :: rest.takeWhile isDecChar
      if is_variable leaf then
        (tokenizeF n (rest.dropWhile isDecChar)).map (List.cons leaf)
      else .error "Invalid variable"
    else .error "Invalid symbol"

/-- The tokenization loop proper, at the always-sufficient fuel. -/
def tokenize (s : List Char) : Except String (List (List Char)) :=
  tokenizeF (s.length + 1) s

/-- One step of the reduction loop over the reversed token list: a constant
or variable pushes a leaf; a binary operator pops `now` then `next`
(raising `ValueError('Invalid')` on a short stack); `~` pops one operand;
any other token raises `ValueError('Invalid')`.  The Python list used as a
stack grows at its end; the embedding keeps the top at the head. -/
def stackStep (stack : List Formula) (el : List Char) :
    Except String (List Formula) :=
  if is_constant el || is_variable el then .ok (.atom el :: stack)
  else if is_binary el then
    match stack with
    | now :: next :: tail => .ok (.binary el now next :: tail)
    | _ => .error "Invalid"
  else if is_unary el then
    match stack with
    | leaf :: tail => .ok (.unary el leaf :: tail)
    | _ => .error "Invalid"
  else .error "Invalid"

/-- The `for el in reversed(res)` loop (the caller passes the reversed
token list). -/
def reduceAll (stack : List Formula) :
    List (List Char) → Except String (List Formula)
  | [] => .ok stack
  | el :: els =>
    match stackStep stack el with
    | .ok stack1 => reduceAll stack1 els
    | .error e => .error e

namespace Formula

/-- `Formula.parse_polish`: tokenize, reduce the reversed token list, and
require exactly one node on the final stack. -/
def parse_polish (s : List Char) : Except String Formula :=
  match tokenize s with
  | .error e => .error e
  | .ok res =>
    match reduceAll [] res.reverse with
    | .error e => .error e
    | .ok [f] => .ok f
    | .ok _ => .error "Invalid"

end Formula

/-! ## The substitution engine

The bodies of `Formula.substitute_variables` (Task 3.3) and
`Formula.substitute_operators` (Task 3.4) are missing from
`src/propositions/syntax.py`: the source contains only their signatures,
docstrings and precondition `assert`s, so the two definitions below are
modelled from the specification's §4.5 wording. -/

/-- Lookup in a substitution map (embedded as an association list). -/
def lookupF (k : List Char) : List (List Char × Formula) → Option Formula
  | [] => none
  | (k', v) :: rest => if k = k' then some v else lookupF k rest

namespace Formula

/-- Modelled from the spec: the body of `Formula.substitute_variables` is
missing from `src/propositions/syntax.py` (only the signature, docstring
and the `assert is_variable(variable)` precondition loop are present).
Per §4.5: each variable leaf whose name is a key is replaced by the mapped
subtree verbatim (replacement content is not itself re-substituted);
constants and operator nodes are preserved with operands substituted
recursively.  The precondition that every key is a variable name is the
caller's obligation and does not affect the traversal. -/
def substitute_variables (f : Formula) (m : List (List Char × Formula)) :
    Formula :=
  match f with
  | atom r =>
      if is_variable r then
        match lookupF r m with
        | some g => g
        | none => atom r
      else atom r
  | unary r x => unary r (substitute_variables x m)
  | binary r x y =>
      binary r (substitute_variables x m) (substitute_variables y m)

/-- Modelled from the spec: the body of `Formula.substitute_operators` is
missing from `src/propositions/syntax.py` (only the signature, docstring
and precondition `assert`s are present).  Per §4.5: traversal is bottom-up
— operands are substituted first; then, if the node's root symbol is a key,
the node is replaced by the mapped template with every occurrence of the
variable `p` replaced by the already-transformed operand 1 and every
occurrence of `q` by the already-transformed operand 2 (a plain
`substitute_variables` of the template); otherwise the node is kept with
its transformed operands.  Variable leaves are never keys. -/
def substitute_operators (f : Formula) (m : List (List Char × Formula)) :
    Formula :=
  match f with
  | atom r =>
      if is_constant r then
        match lookupF r m with
        | some t => t
        | none => atom r
      else atom r
  | unary r x =>
      let x' := substitute_operators x m
      match lookupF r m with
      | some t => substitute_variables t [(['p'], x')]
      | none => unary r x'
  | binary r x y =>
      let x' := substitute_operators x m
      let y' := substitute_operators y m
      match lookupF r m with
      | some t => substitute_variables t [(['p'], x'), (['q'], y')]
      | none => binary r x' y'

end Formula

deriving instance DecidableEq for Except

/-! ### Sanity checks on concrete inputs -/

example : str "ab" = ['a', 'b'] := by decide

example : Formula.is_formula (str "(p&q)") = true := by decide
example : Formula.is_formula (str "p&q") = false := by decide
example : Formula.is_formula (str "((p&q)") = false := by decide

example :
    Formula.parse (str "~(p|q)") =
      some (.unary ['~'] (.binary ['|'] (.atom ['p']) (.atom ['q']))) := by
  decide

example : parsePre (str "q7&p") = (some (.atom ['q', '7']), str "&p") := by
  decide

example : parsePre [] = (none, str "End of input") := by decide

example :
    Formula.parse_polish (str "&pq") =
      .ok (.binary ['&'] (.atom ['p']) (.atom ['q'])) := by decide

example : Formula.parse_polish (str "p") = .ok (.atom ['p']) := by decide
example : Formula.parse_polish (str "&p") = .error "Invalid" := by decide
example : Formula.parse_polish (str "pq") = .error "Invalid" := by decide
example : Formula.parse_polish (str "a") = .error "Invalid symbol" := by decide
example : Formula.parse_polish (str "<->pq") = .error "Invalid" := by decide

example : parsePre (str "(p<->q)") = (none, str "Invalid operator") := by
  decide

/-! ## Classifier lemmas -/

theorem is_constant_elim {r : List Char} (h : is_constant r = true) :
    r = ['T'] ∨ r = ['F'] := by
  simpa [is_constant] using h

theorem is_unary_elim {r : List Char} (h : is_unary r = true) : r = ['~'] := by
  simpa [is_unary] using h

theorem is_binary_elim {r : List Char} (h : is_binary r = true) :
    r = ['&'] ∨ r = ['|'] ∨ r = ['-', '>'] := by
  have := h
  simp only [is_binary, Bool.or_eq_true, beq_iff_eq] at this
  tauto

theorem is_variable_elim {r : List Char} (h : is_variable r = true) :
    ∃ c ds, r = c :: ds ∧ ('p' ≤ c && c ≤ 'z') = true ∧
      (ds = [] ∨ ds.all isDecChar = true) := by
  match r with
  | [] => simp [is_variable, is_variableT] at h
  | c :: ds =>
    simp only [is_variable, is_variableT, Option.getD_some, Bool.and_eq_true,
      Bool.or_eq_true, beq_iff_eq] at h
    exact ⟨c, ds, rfl, by simp [h.1], h.2⟩

theorem is_variableT_eq {s : List Char} (h : s ≠ []) :
    is_variableT s = some (is_variable s) := by
  match s with
  | [] => exact absurd rfl h
  | c :: rest => simp [is_variable, is_variableT]

/-! ## List helpers -/

/-- The continuation after a serialized tree must not begin with a decimal
digit, or a trailing variable would munch into it. -/
def noDig : List Char → Bool
  | [] => true
  | c :: _ => !isDecChar c

theorem takeWhile_append_all {p : Char → Bool} {a : List Char}
    (b : List Char) (ha : a.all p = true) (hb : noDig b = true)
    (hp : ∀ c, isDecChar c = false → p c = false) :
    (a ++ b).takeWhile p = a ∧ (a ++ b).dropWhile p = b := by
  induction a with
  | nil =>
    simp only [List.nil_append]
    cases b with
    | nil => simp
    | cons c t =>
      simp only [noDig, Bool.not_eq_true'] at hb
      simp [List.takeWhile, List.dropWhile, hp c hb]
  | cons x a ih =>
    simp only [List.all_cons, Bool.and_eq_true] at ha
    have := ih ha.2
    simp [List.takeWhile, List.dropWhile, ha.1, this]

/-! ## `findOp` lemmas -/

theorem findOp_sound {cands : List (List Char)} {s op r : List Char}
    (h : findOp cands s = some (op, r)) : op ++ r = s := by
  induction cands with
  | nil => simp [findOp] at h
  | cons c cs ih =>
    simp only [findOp] at h
    split at h
    · rename_i hpre
      obtain ⟨t, rfl⟩ := List.isPrefixOf_iff_prefix.mp hpre
      simp only [Option.some.injEq, Prod.mk.injEq] at h
      obtain ⟨rfl, rfl⟩ := h
      simp [List.drop_left]
    · exact ih h

theorem findOp_binary {op : List Char} (h : is_binary op = true)
    (t : List Char) : findOp opCandidates (op ++ t) = some (op, t) := by
  rcases is_binary_elim h with rfl | rfl | rfl <;>
    simp [findOp, opCandidates, List.isPrefixOf]

/-! ## Infix parser: soundness

Whenever `_parse_prefix` succeeds, the parsed tree satisfies the
constructor invariants and its serialization is exactly the consumed
prefix. -/

theorem parseF_sound :
    ∀ n s f r, parsePrefixF n s = (some f, r) →
      f.valid = true ∧ f.rep ++ r = s := by
  intro n
  induction n with
  | zero => intro s f r h; simp [parsePrefixF] at h
  | succ n ih =>
    intro s f r h
    match s with
    | [] => simp [parsePrefixF, str] at h
    | c :: rest =>
      simp only [parsePrefixF] at h
      split at h
      · rename_i hc
        simp only [Prod.mk.injEq, Option.some.injEq] at h
        obtain ⟨rfl, rfl⟩ := h
        exact ⟨by simp [Formula.valid, hc], by simp [Formula.rep]⟩
      · split at h
        · -- c = '('
          rename_i hc hpar
          subst hpar
          split at h
          · simp at h
          · rename_i now ost hrec
            split at h
            · simp at h
            · rename_i host
              split at h
              · simp at h
              · rename_i op ost1 hfind
                split at h
                · rename_i hbin
                  split at h
                  · simp at h
                  · rename_i nxt ost2 hrec2
                    split at h
                    · rename_i tail
                      simp only [Prod.mk.injEq, Option.some.injEq] at h
                      obtain ⟨rfl, rfl⟩ := h
                      obtain ⟨hv1, hs1⟩ := ih rest now ost hrec
                      obtain ⟨hv2, hs2⟩ := ih ost1 nxt _ hrec2
                      have hop : op ++ ost1 = ost := findOp_sound hfind
                      refine ⟨by simp [Formula.valid, hbin, hv1, hv2], ?_⟩
                      simp only [Formula.rep, List.cons_append,
                        List.cons.injEq, true_and]
                      rw [← hs1, ← hop, ← hs2]
                      simp
                    · simp at h
                · simp at h
        · split at h
          · -- c = '~'
            rename_i hc hpar htil
            subst htil
            split at h
            · simp at h
            · rename_i leaf ost hrec
              simp only [Prod.mk.injEq, Option.some.injEq] at h
              obtain ⟨rfl, rfl⟩ := h
              obtain ⟨hv, hs⟩ := ih rest leaf ost hrec
              constructor
              · simp [Formula.valid, is_unary, hv]
              · simp only [Formula.rep, List.cons_append, List.append_assoc,
                  List.nil_append, List.cons.injEq, true_and]
                exact hs
          · split at h
            · -- variable branch
              rename_i hc hpar htil hpz
              split at h
              · rename_i hvar
                simp only [Prod.mk.injEq, Option.some.injEq] at h
                obtain ⟨rfl, rfl⟩ := h
                constructor
                · simp [Formula.valid, hvar]
                · simp [Formula.rep, List.takeWhile_append_dropWhile]
              · simp at h
            · simp at h

/-! ## Infix parser: completeness

Parsing a serialized constructor-built tree consumes exactly the
serialization (provided the continuation does not begin with a decimal
digit, which would extend a trailing variable's maximal munch). -/

theorem pz_char_facts {c : Char} (h : ('p' ≤ c && c ≤ 'z') = true) :
    is_constant [c] = false ∧ c ≠ '(' ∧ c ≠ '~' := by
  simp only [Bool.and_eq_true, decide_eq_true_eq] at h
  refine ⟨?_, ?_, ?_⟩
  · have hT : c ≠ 'T' := by rintro rfl; exact absurd h.1 (by decide)
    have hF : c ≠ 'F' := by rintro rfl; exact absurd h.1 (by decide)
    simp [is_constant, hT, hF]
  · rintro rfl; exact absurd h.1 (by decide)
  · rintro rfl; exact absurd h.2 (by decide)

theorem binary_ne_nil {r : List Char} (h : is_binary r = true) : r ≠ [] := by
  rcases is_binary_elim h with rfl | rfl | rfl <;> simp

theorem binary_noDig {r : List Char} (h : is_binary r = true)
    (u : List Char) : noDig (r ++ u) = true := by
  rcases is_binary_elim h with rfl | rfl | rfl <;> simp [noDig] <;> decide

theorem noDig_rparen (s : List Char) : noDig (')' :: s) = true := by
  simp only [noDig]
  decide

theorem parseF_complete :
    ∀ f : Formula, f.valid = true → ∀ s n, noDig s = true →
      f.rep.length < n → parsePrefixF n (f.rep ++ s) = (some f, s) := by
  intro f
  induction f with
  | atom r =>
    intro hv s n hs hn
    cases n with
    | zero => omega
    | succ m =>
      by_cases hcon : is_constant r = true
      · rcases is_constant_elim hcon with rfl | rfl
        · have e : is_constant ['T'] = true := by decide
          simp [parsePrefixF, Formula.rep, e]
        · have e : is_constant ['F'] = true := by decide
          simp [parsePrefixF, Formula.rep, e]
      · have hvar : is_variable r = true := by
          simp only [Formula.valid, Bool.or_eq_true] at hv
          tauto
        obtain ⟨c, ds, rfl, hpz, hds⟩ := is_variable_elim hvar
        have hall : ds.all isDecChar = true := by
          rcases hds with rfl | hds
          · simp
          · exact hds
        obtain ⟨hc1, hc2, hc3⟩ := pz_char_facts hpz
        obtain ⟨htake, hdrop⟩ :=
          takeWhile_append_all (p := isDecChar) s hall hs (fun _ h => h)
        simp only [Formula.rep, List.cons_append, parsePrefixF, hc1, hc2, hc3,
          hpz, htake, hdrop]
        simp [hvar]
  | unary r x ih =>
    intro hv s n hs hn
    simp only [Formula.valid, Bool.and_eq_true] at hv
    obtain ⟨hu, hvx⟩ := hv
    have hr : r = ['~'] := is_unary_elim hu
    subst hr
    cases n with
    | zero => omega
    | succ m =>
      have hlen : x.rep.length < m := by
        simp only [Formula.rep, List.length_cons, List.length_append] at hn ⊢
        omega
      have hrec := ih hvx s m hs hlen
      have e1 : is_constant ['~'] = false := by decide
      have e2 : ('~' : Char) ≠ '(' := by decide
      simp [Formula.rep, parsePrefixF, e1, e2, hrec]
  | binary r x y ihx ihy =>
    intro hv s n hs hn
    simp only [Formula.valid, Bool.and_eq_true] at hv
    obtain ⟨⟨hbin, hvx⟩, hvy⟩ := hv
    cases n with
    | zero => omega
    | succ m =>
      have hlenx : x.rep.length < m := by
        simp only [Formula.rep, List.length_cons, List.length_append] at hn ⊢
        omega
      have hleny : y.rep.length < m := by
        simp only [Formula.rep, List.length_cons, List.length_append] at hn ⊢
        omega
      have hrecx := ihx hvx (r ++ (y.rep ++ ')' :: s)) m
        (binary_noDig hbin _) hlenx
      have hrecy := ihy hvy (')' :: s) m (noDig_rparen s) hleny
      have hne : r ++ (y.rep ++ ')' :: s) ≠ [] := by
        simp [binary_ne_nil hbin]
      have hfind := findOp_binary hbin (y.rep ++ ')' :: s)
      have e1 : is_constant ['('] = true ↔ False := by decide
      simp only [Formula.rep, List.cons_append, List.append_assoc,
        List.singleton_append, List.nil_append, parsePrefixF, e1, if_false,
        if_pos rfl]
      rw [hrecx]
      simp [hne, hfind, hbin, hrecy]

/-! ## Infix parser: entry-point corollaries -/

theorem parse_rep {f : Formula} (hv : f.valid = true) :
    Formula.parse f.rep = some f := by
  have h := parseF_complete f hv [] (f.rep.length + 1) rfl (by omega)
  rw [List.append_nil] at h
  simp only [Formula.parse, parsePre, h]

theorem is_formula_rep {f : Formula} (hv : f.valid = true) :
    Formula.is_formula f.rep = true := by
  have h := parseF_complete f hv [] (f.rep.length + 1) rfl (by omega)
  rw [List.append_nil] at h
  simp [Formula.is_formula, parsePre, h]

theorem is_formula_elim {s : List Char} (h : Formula.is_formula s = true) :
    ∃ f : Formula, Formula.parse s = some f ∧ f.valid = true ∧ f.rep = s := by
  rcases hp : parsePre s with ⟨of, ost⟩
  simp only [Formula.is_formula, hp, Bool.and_eq_true, Option.isSome_iff_exists,
    beq_iff_eq] at h
  obtain ⟨⟨f, rfl⟩, rfl⟩ := h
  obtain ⟨hv, hs⟩ := parseF_sound _ _ _ _ hp
  rw [List.append_nil] at hs
  exact ⟨f, by simp [Formula.parse, hp], hv, hs⟩

theorem rep_injective {f g : Formula} (hf : f.valid = true)
    (hg : g.valid = true) (h : f.rep = g.rep) : f = g := by
  have c1 := parseF_complete f hf [] (f.rep.length + 1) rfl (by omega)
  have c2 := parseF_complete g hg [] (g.rep.length + 1) rfl (by omega)
  rw [List.append_nil] at c1 c2
  rw [h] at c1
  rw [c1] at c2
  simpa using c2

/-! ## Polish notation: the token sequence of a tree -/

namespace Formula

/-- The token sequence the tokenizer produces on `polish f` (root token
followed by the operands' tokens). -/
def ptoks : Formula → List (List Char)
  | atom r => [r]
  | unary r x => r :: ptoks x
  | binary r x y => r :: (ptoks x ++ ptoks y)

end Formula

theorem ptoks_join (f : Formula) : (Formula.ptoks f).flatten = f.polish := by
  induction f with
  | atom r => simp [Formula.ptoks, Formula.polish]
  | unary r x ih => simp [Formula.ptoks, Formula.polish, ih]
  | binary r x y ihx ihy => simp [Formula.ptoks, Formula.polish, ihx, ihy]

theorem valid_root_facts {r : List Char} (h : (is_variable r || is_constant r) = true) :
    r ≠ [] := by
  rcases Bool.or_eq_true _ _ ▸ h with hv | hc
  · obtain ⟨c, ds, rfl, -, -⟩ := is_variable_elim hv
    simp
  · rcases is_constant_elim hc with rfl | rfl <;> simp

theorem ptoks_length_le {f : Formula} (hv : f.valid = true) :
    (Formula.ptoks f).length ≤ f.polish.length := by
  induction f with
  | atom r =>
    simp only [Formula.valid] at hv
    have := valid_root_facts hv
    simp only [Formula.ptoks, Formula.polish, List.length_singleton]
    cases r with
    | nil => exact absurd rfl this
    | cons c t => simp
  | unary r x ih =>
    simp only [Formula.valid, Bool.and_eq_true] at hv
    have := ih hv.2
    simp only [Formula.ptoks, Formula.polish, List.length_cons,
      List.length_append]
    have hr : r = ['~'] := is_unary_elim hv.1
    subst hr
    simp
    omega
  | binary r x y ihx ihy =>
    simp only [Formula.valid, Bool.and_eq_true] at hv
    have hx := ihx hv.1.2
    have hy := ihy hv.2
    have hr : r ≠ [] := binary_ne_nil hv.1.1
    simp only [Formula.ptoks, Formula.polish, List.length_cons,
      List.length_append]
    cases r with
    | nil => exact absurd rfl hr
    | cons c t => simp only [List.length_cons]; omega

theorem pz_notDec {c : Char} (h : ('p' ≤ c && c ≤ 'z') = true) :
    isDecChar c = false := by
  simp only [Bool.and_eq_true, decide_eq_true_eq] at h
  have : ¬ c ≤ '9' := by
    intro hle
    exact absurd (le_trans h.1 hle) (by decide)
  simp [isDecChar, this]

theorem noDig_polish {f : Formula} (hv : f.valid = true) (u : List Char) :
    noDig (f.polish ++ u) = true := by
  cases f with
  | atom r =>
    simp only [Formula.valid] at hv
    rcases Bool.or_eq_true _ _ ▸ hv with hvr | hcr
    · obtain ⟨c, ds, rfl, hpz, -⟩ := is_variable_elim hvr
      simp [Formula.polish, noDig, pz_notDec hpz]
    · rcases is_constant_elim hcr with rfl | rfl <;>
        · simp only [Formula.polish, List.singleton_append, noDig]
          decide
  | unary r x =>
    simp only [Formula.valid, Bool.and_eq_true] at hv
    have hr : r = ['~'] := is_unary_elim hv.1
    subst hr
    simp only [Formula.polish, List.cons_append, List.nil_append, noDig]
    decide
  | binary r x y =>
    simp only [Formula.valid, Bool.and_eq_true] at hv
    rcases is_binary_elim hv.1.1 with rfl | rfl | rfl <;>
      · simp only [Formula.polish, List.cons_append, List.nil_append,
          List.append_assoc, noDig]
        decide

theorem Except_map_map {ε α β γ : Type} (x : Except ε α) (f : α → β)
    (g : β → γ) : (x.map f).map g = x.map (fun a => g (f a)) := by
  cases x <;> rfl

theorem pz_tok_ne {c : Char} (h : ('p' ≤ c && c ≤ 'z') = true) :
    c ≠ 'T' ∧ c ≠ 'F' ∧ c ≠ '~' ∧ c ≠ '&' ∧ c ≠ '|' ∧ c ≠ '+' ∧
      c ≠ '<' ∧ c ≠ '-' := by
  simp only [Bool.and_eq_true, decide_eq_true_eq] at h
  refine ⟨?_, ?_, ?_, ?_, ?_, ?_, ?_, ?_⟩ <;>
    · rintro rfl
      first
        | exact absurd h.1 (by decide)
        | exact absurd h.2 (by decide)

/-- Tokenizing a serialized tree followed by a no-digit continuation
produces the tree's token sequence followed by the continuation's tokens
(fuel decreases by exactly one per token). -/
theorem tokenizeF_polish :
    ∀ f : Formula, f.valid = true → ∀ s n, noDig s = true →
      tokenizeF ((Formula.ptoks f).length + n) (f.polish ++ s) =
        (tokenizeF n s).map (fun ts => Formula.ptoks f ++ ts) := by
  intro f
  induction f with
  | atom r =>
    intro hv s n hs
    simp only [Formula.valid] at hv
    rcases Bool.or_eq_true _ _ ▸ hv with hvr | hcr
    · obtain ⟨c, ds, rfl, hpz, hds⟩ := is_variable_elim hvr
      obtain ⟨hT, hF, hTl, hYp, hBar, hPl, hLt, hDa⟩ := pz_tok_ne hpz
      have hall : ds.all isDecChar = true := by
        rcases hds with rfl | hds
        · simp
        · exact hds
      obtain ⟨htake, hdrop⟩ :=
        takeWhile_append_all (p := isDecChar) s hall hs (fun _ h => h)
      have hvar : is_variable (c :: ds) = true := hvr
      rw [show (Formula.ptoks (.atom (c :: ds))).length + n = n + 1 by
        simp [Formula.ptoks, Nat.add_comm]]
      simp only [Formula.polish, List.cons_append, tokenizeF]
      simp [hT, hF, hTl, hYp, hBar, hPl, List.isPrefixOf, Ne.symm hLt,
        Ne.symm hDa, hpz, htake, hdrop, hvar, Formula.ptoks]
    · rcases is_constant_elim hcr with rfl | rfl
      · rw [show (Formula.ptoks (.atom ['T'])).length + n = n + 1 by
          simp [Formula.ptoks, Nat.add_comm]]
        simp [Formula.polish, tokenizeF, Formula.ptoks]
      · rw [show (Formula.ptoks (.atom ['F'])).length + n = n + 1 by
          simp [Formula.ptoks, Nat.add_comm]]
        simp [Formula.polish, tokenizeF, Formula.ptoks]
  | unary r x ih =>
    intro hv s n hs
    simp only [Formula.valid, Bool.and_eq_true] at hv
    have hr : r = ['~'] := is_unary_elim hv.1
    subst hr
    have hx := ih hv.2 s n hs
    rw [show (Formula.ptoks (.unary ['~'] x)).length + n =
      ((Formula.ptoks x).length + n) + 1 by simp [Formula.ptoks]; omega]
    simp only [Formula.ptoks, Formula.polish, List.cons_append,
      List.nil_append]
    simp [tokenizeF, hx, Except_map_map]
  | binary r x y ihx ihy =>
    intro hv s n hs
    simp only [Formula.valid, Bool.and_eq_true] at hv
    obtain ⟨⟨hbin, hvx⟩, hvy⟩ := hv
    have hy := ihy hvy s n hs
    have hx := ihx hvx (y.polish ++ s) ((Formula.ptoks y).length + n)
      (noDig_polish hvy s)
    rcases is_binary_elim hbin with rfl | rfl | rfl
    · rw [show (Formula.ptoks (.binary ['&'] x y)).length + n =
        ((Formula.ptoks x).length + ((Formula.ptoks y).length + n)) + 1 by
        simp [Formula.ptoks]; omega]
      simp only [Formula.ptoks, Formula.polish, List.cons_append,
        List.append_assoc, List.nil_append] at hx hy ⊢
      simp [tokenizeF, hx, hy, Except_map_map]
    · rw [show (Formula.ptoks (.binary ['|'] x y)).length + n =
        ((Formula.ptoks x).length + ((Formula.ptoks y).length + n)) + 1 by
        simp [Formula.ptoks]; omega]
      simp only [Formula.ptoks, Formula.polish, List.cons_append,
        List.append_assoc, List.nil_append] at hx hy ⊢
      simp [tokenizeF, hx, hy, Except_map_map]
    · rw [show (Formula.ptoks (.binary ['-', '>'] x y)).length + n =
        ((Formula.ptoks x).length + ((Formula.ptoks y).length + n)) + 1 by
        simp [Formula.ptoks]; omega]
      simp only [Formula.ptoks, Formula.polish, List.cons_append,
        List.append_assoc, List.nil_append] at hx hy ⊢
      have hp1 : List.isPrefixOf ['<', '-', '>']
          ('-' :: '>' :: (x.polish ++ (y.polish ++ s))) = false := rfl
      have hp2 : List.isPrefixOf ['-', '>']
          ('-' :: '>' :: (x.polish ++ (y.polish ++ s))) = true := by
        simp [List.isPrefixOf]
      simp [tokenizeF, hp1, hp2, hx, hy, Except_map_map]

theorem tokenizeF_nil {n : Nat} (h : 0 < n) : tokenizeF n [] = .ok [] := by
  cases n with
  | zero => omega
  | succ m => rfl

/-- Tokenizing a serialized tree alone yields exactly its token sequence. -/
theorem tokenize_polish {f : Formula} (hv : f.valid = true) :
    tokenize f.polish = .ok (Formula.ptoks f) := by
  have hk := ptoks_length_le hv
  have h := tokenizeF_polish f hv []
    (f.polish.length + 1 - (Formula.ptoks f).length) rfl
  rw [List.append_nil] at h
  rw [show (Formula.ptoks f).length +
      (f.polish.length + 1 - (Formula.ptoks f).length) =
      f.polish.length + 1 by omega] at h
  rw [tokenizeF_nil (by omega)] at h
  simp only [tokenize, h, Except.map, List.append_nil]

theorem binary_not_leaf {r : List Char} (h : is_binary r = true) :
    is_constant r = false ∧ is_variable r = false ∧ is_unary r = false := by
  rcases is_binary_elim h with rfl | rfl | rfl <;>
    exact ⟨by decide, by decide, by decide⟩

/-- Processing the reversed token sequence of a tree pushes exactly that
tree onto the stack. -/
theorem reduceAll_push :
    ∀ f : Formula, f.valid = true → ∀ stack els,
      reduceAll stack ((Formula.ptoks f).reverse ++ els) =
        reduceAll (f :: stack) els := by
  intro f
  induction f with
  | atom r =>
    intro hv stack els
    simp only [Formula.valid] at hv
    have hstep : stackStep stack r = .ok (.atom r :: stack) := by
      simp only [stackStep]
      rw [if_pos (by rcases Bool.or_eq_true _ _ ▸ hv with h | h <;> simp [h])]
    simp [Formula.ptoks, reduceAll, hstep]
  | unary r x ih =>
    intro hv stack els
    simp only [Formula.valid, Bool.and_eq_true] at hv
    have hr : r = ['~'] := is_unary_elim hv.1
    subst hr
    have hstep : stackStep (x :: stack) ['~'] = .ok (.unary ['~'] x :: stack) := by
      simp only [stackStep]
      rw [if_neg (by decide), if_neg (by decide), if_pos (by decide)]
    simp only [Formula.ptoks, List.reverse_cons, List.append_assoc,
      List.singleton_append]
    rw [ih hv.2 stack (['~'] :: els)]
    simp [reduceAll, hstep]
  | binary r x y ihx ihy =>
    intro hv stack els
    simp only [Formula.valid, Bool.and_eq_true] at hv
    obtain ⟨⟨hbin, hvx⟩, hvy⟩ := hv
    obtain ⟨hnc, hnv, hnu⟩ := binary_not_leaf hbin
    have hstep : stackStep (x :: y :: stack) r = .ok (.binary r x y :: stack) := by
      simp only [stackStep]
      rw [if_neg (by simp [hnc, hnv]), if_pos hbin]
    simp only [Formula.ptoks, List.reverse_cons, List.reverse_append,
      List.append_assoc, List.singleton_append]
    rw [ihy hvy stack ((Formula.ptoks x).reverse ++ (r :: els))]
    rw [ihx hvx (y :: stack) (r :: els)]
    simp [reduceAll, hstep]

/-- The Polish round trip: `parse_polish(polish(f)) = f` for every
constructor-built tree. -/
theorem parse_polish_polish {f : Formula} (hv : f.valid = true) :
    Formula.parse_polish f.polish = .ok f := by
  have ht := tokenize_polish hv
  have hr := reduceAll_push f hv [] []
  rw [List.append_nil] at hr
  simp only [Formula.parse_polish, ht, hr, reduceAll]

theorem Except_map_ok {ε α β : Type} {x : Except ε α} {g : α → β} {y : β}
    (h : x.map g = .ok y) : ∃ a, x = .ok a ∧ y = g a := by
  cases x with
  | error e => simp [Except.map] at h
  | ok a =>
    simp only [Except.map, Except.ok.injEq] at h
    exact ⟨a, rfl, h.symm⟩

/-- Whatever token list the tokenizer returns concatenates back to its
input. -/
theorem tokenizeF_sound :
    ∀ n s ts, tokenizeF n s = .ok ts → ts.flatten = s := by
  intro n
  induction n with
  | zero => intro s ts h; simp [tokenizeF] at h
  | succ n ih =>
    intro s ts h
    match s with
    | [] =>
      simp only [tokenizeF, Except.ok.injEq] at h
      simp [← h]
    | c :: rest =>
      simp only [tokenizeF] at h
      split at h
      · rename_i hc
        simp only [Bool.or_eq_true, decide_eq_true_eq] at hc
        obtain ⟨ts', hrec, rfl⟩ := Except_map_ok h
        rcases hc with rfl | rfl <;> simp [ih _ _ hrec]
      · split at h
        · rename_i hc
          subst hc
          obtain ⟨ts', hrec, rfl⟩ := Except_map_ok h
          simp [ih _ _ hrec]
        · split at h
          · rename_i hc
            simp only [Bool.or_eq_true, decide_eq_true_eq] at hc
            obtain ⟨ts', hrec, rfl⟩ := Except_map_ok h
            rcases hc with (rfl | rfl) | rfl <;> simp [ih _ _ hrec]
          · split at h
            · rename_i hpre
              obtain ⟨t, ht⟩ := List.isPrefixOf_iff_prefix.mp hpre
              obtain ⟨ts', hrec, rfl⟩ := Except_map_ok h
              obtain ⟨rfl, hrest⟩ : c = '<' ∧ rest = '-' :: '>' :: t := by
                cases ht
                exact ⟨rfl, rfl⟩
              subst hrest
              simp only [List.drop_succ_cons, List.drop_zero] at hrec
              simp [ih _ _ hrec]
            · split at h
              · rename_i hpre
                obtain ⟨t, ht⟩ := List.isPrefixOf_iff_prefix.mp hpre
                obtain ⟨ts', hrec, rfl⟩ := Except_map_ok h
                obtain ⟨rfl, hrest⟩ : c = '-' ∧ rest = '>' :: t := by
                  cases ht
                  exact ⟨rfl, rfl⟩
                subst hrest
                simp only [List.drop_succ_cons, List.drop_zero] at hrec
                simp [ih _ _ hrec]
              · split at h
                · rename_i hpre
                  obtain ⟨t, ht⟩ := List.isPrefixOf_iff_prefix.mp hpre
                  obtain ⟨ts', hrec, rfl⟩ := Except_map_ok h
                  obtain ⟨rfl, hrest⟩ : c = '-' ∧ rest = '&' :: t := by
                    cases ht
                    exact ⟨rfl, rfl⟩
                  subst hrest
                  simp only [List.drop_succ_cons, List.drop_zero] at hrec
                  simp [ih _ _ hrec]
                · split at h
                  · rename_i hpre
                    obtain ⟨t, ht⟩ := List.isPrefixOf_iff_prefix.mp hpre
                    obtain ⟨ts', hrec, rfl⟩ := Except_map_ok h
                    obtain ⟨rfl, hrest⟩ : c = '-' ∧ rest = '|' :: t := by
                      cases ht
                      exact ⟨rfl, rfl⟩
                    subst hrest
                    simp only [List.drop_succ_cons, List.drop_zero] at hrec
                    simp [ih _ _ hrec]
                  · split at h
                    · split at h
                      · obtain ⟨ts', hrec, rfl⟩ := Except_map_ok h
                        simp [ih _ _ hrec, List.takeWhile_append_dropWhile]
                      · simp at h
                    · simp at h

theorem stackStep_cases {stack stack1 : List Formula} {t : List Char}
    (h : stackStep stack t = .ok stack1) :
    ((is_constant t || is_variable t) = true ∧ stack1 = .atom t :: stack) ∨
    (∃ a b rest, is_binary t = true ∧ stack = a :: b :: rest ∧
      stack1 = .binary t a b :: rest) ∨
    (∃ a rest, is_unary t = true ∧ stack = a :: rest ∧
      stack1 = .unary t a :: rest) := by
  simp only [stackStep] at h
  split at h
  · rename_i hc
    left
    simp only [Except.ok.injEq] at h
    exact ⟨hc, h.symm⟩
  · split at h
    · rename_i hb
      split at h
      · rename_i a b rest
        simp only [Except.ok.injEq] at h
        exact Or.inr (Or.inl ⟨a, b, rest, hb, rfl, h.symm⟩)
      · simp at h
    · split at h
      · rename_i hu
        split at h
        · rename_i a rest
          simp only [Except.ok.injEq] at h
          exact Or.inr (Or.inr ⟨a, rest, hu, rfl, h.symm⟩)
        · simp at h
      · simp at h

/-- The invariant of the reversed-token reduction loop: whenever it
succeeds, the tokens processed so far, followed by the serializations of
the consumed stack entries, serialize exactly the produced nodes. -/
theorem reduceAll_inv :
    ∀ els (stack out : List Formula), reduceAll stack els = .ok out →
      (∀ g ∈ stack, g.valid = true) →
      ∃ k gs, k ≤ stack.length ∧ out = gs ++ stack.drop k ∧
        (∀ g ∈ gs, g.valid = true) ∧
        (els.reverse).flatten ++
            ((stack.take k).map Formula.polish).flatten =
          (gs.map Formula.polish).flatten := by
  intro els
  induction els with
  | nil =>
    intro stack out h hst
    simp only [reduceAll, Except.ok.injEq] at h
    subst h
    exact ⟨0, [], Nat.zero_le _, by simp, by simp, by simp⟩
  | cons t els' ih =>
    intro stack out h hst
    simp only [reduceAll] at h
    split at h
    case h_2 => simp at h
    case h_1 stack1 hstep =>
    rcases stackStep_cases hstep with ⟨hleaf, rfl⟩ |
        ⟨a, b, rest, hb, rfl, rfl⟩ | ⟨a, rest, hu, rfl, rfl⟩
    · -- constant/variable token: a leaf was pushed
      have hva : (Formula.atom t).valid = true := by
        simp only [Formula.valid]
        rcases Bool.or_eq_true _ _ ▸ hleaf with h' | h' <;> simp [h']
      obtain ⟨k', gs', hk', hout, hgs', hjoin⟩ := ih _ out h (by
        intro g hg
        rcases List.mem_cons.mp hg with rfl | hg
        · exact hva
        · exact hst g hg)
      cases k' with
      | zero =>
        refine ⟨0, gs' ++ [.atom t], Nat.zero_le _, ?_, ?_, ?_⟩
        · simp only [List.drop_zero] at hout ⊢
          simp [hout]
        · intro g hg
          rcases List.mem_append.mp hg with hg | hg
          · exact hgs' g hg
          · simp only [List.mem_singleton] at hg
            subst hg
            exact hva
        · simp only [List.take_zero, List.map_nil, List.flatten_nil,
            List.append_nil] at hjoin
          simp [hjoin, Formula.polish]
      | succ k'' =>
        refine ⟨k'', gs', by simpa using hk', ?_, hgs', ?_⟩
        · simpa using hout
        · simp only [List.take_succ_cons, List.map_cons, List.flatten_cons,
            Formula.polish] at hjoin
          simp only [List.reverse_cons, List.flatten_append,
            List.flatten_cons, List.flatten_nil, List.append_nil,
            List.append_assoc] at hjoin ⊢
          exact hjoin
    · -- binary token: two nodes popped, one pushed
      have hvab : a.valid = true := hst a (by simp)
      have hvb : b.valid = true := hst b (by simp)
      have hvbin : (Formula.binary t a b).valid = true := by
        simp [Formula.valid, hb, hvab, hvb]
      obtain ⟨k', gs', hk', hout, hgs', hjoin⟩ := ih _ out h (by
        intro g hg
        rcases List.mem_cons.mp hg with rfl | hg
        · exact hvbin
        · exact hst g (by simp [hg]))
      cases k' with
      | zero =>
        refine ⟨2, gs' ++ [.binary t a b], by simp, ?_, ?_, ?_⟩
        · simp only [List.drop_zero] at hout
          simp [hout]
        · intro g hg
          rcases List.mem_append.mp hg with hg | hg
          · exact hgs' g hg
          · simp only [List.mem_singleton] at hg
            subst hg
            exact hvbin
        · simp only [List.take_zero, List.map_nil, List.flatten_nil,
            List.append_nil] at hjoin
          simp [hjoin, Formula.polish]
      | succ k'' =>
        refine ⟨k'' + 2, gs', by simp at hk' ⊢; omega, ?_, hgs', ?_⟩
        · simpa using hout
        · simp only [List.take_succ_cons, List.map_cons, List.flatten_cons,
            Formula.polish] at hjoin ⊢
          simp only [List.reverse_cons, List.flatten_append,
            List.flatten_cons, List.flatten_nil, List.append_nil,
            List.append_assoc] at hjoin ⊢
          exact hjoin
    · -- unary token: one node popped, one pushed
      have hvaa : a.valid = true := hst a (by simp)
      have hvun : (Formula.unary t a).valid = true := by
        simp [Formula.valid, hu, hvaa]
      obtain ⟨k', gs', hk', hout, hgs', hjoin⟩ := ih _ out h (by
        intro g hg
        rcases List.mem_cons.mp hg with rfl | hg
        · exact hvun
        · exact hst g (by simp [hg]))
      cases k' with
      | zero =>
        refine ⟨1, gs' ++ [.unary t a], by simp, ?_, ?_, ?_⟩
        · simp only [List.drop_zero] at hout
          simp [hout]
        · intro g hg
          rcases List.mem_append.mp hg with hg | hg
          · exact hgs' g hg
          · simp only [List.mem_singleton] at hg
            subst hg
            exact hvun
        · simp only [List.take_zero, List.map_nil, List.flatten_nil,
            List.append_nil] at hjoin
          simp [hjoin, Formula.polish]
      | succ k'' =>
        refine ⟨k'' + 1, gs', by simp at hk' ⊢; omega, ?_, hgs', ?_⟩
        · simpa using hout
        · simp only [List.take_succ_cons, List.map_cons, List.flatten_cons,
            Formula.polish] at hjoin ⊢
          simp only [List.reverse_cons, List.flatten_append,
            List.flatten_cons, List.flatten_nil, List.append_nil,
            List.append_assoc] at hjoin ⊢
          exact hjoin

/-- `parse_polish` only ever returns the tree whose Polish serialization is
exactly the input (so it accepts precisely the well-formed Polish
strings). -/
theorem parse_polish_sound {s : List Char} {f : Formula}
    (h : Formula.parse_polish s = .ok f) :
    f.valid = true ∧ f.polish = s := by
  simp only [Formula.parse_polish] at h
  split at h
  · simp at h
  · rename_i ts hts
    split at h
    · simp at h
    · rename_i f0 hred
      simp only [Except.ok.injEq] at h
      subst h
      obtain ⟨k, gs, hk, hout, hgs, hjoin⟩ :=
        reduceAll_inv ts.reverse [] [f0] hred (by simp)
      obtain rfl : k = 0 := by simpa using hk
      obtain rfl : gs = [f0] := by simpa using hout.symm
      have hflat : ts.flatten = s := by
        simp only [tokenize] at hts
        exact tokenizeF_sound _ _ _ hts
      simp only [List.reverse_reverse, List.take_nil, List.map_nil,
        List.flatten_nil, List.append_nil, List.map_cons,
        List.flatten_cons] at hjoin
      refine ⟨hgs f0 (by simp), ?_⟩
      rw [← hflat, hjoin]
    · simp at h

/-! ## Substitution lemmas -/

theorem lookupF_nil (k : List Char) : lookupF k [] = none := rfl

/-- `substitute_variables` with the empty substitution map is the
identity. -/
theorem substitute_variables_empty (f : Formula) :
    f.substitute_variables [] = f := by
  induction f with
  | atom r => simp [Formula.substitute_variables, lookupF_nil]
  | unary r x ih => simp [Formula.substitute_variables, ih]
  | binary r x y ihx ihy => simp [Formula.substitute_variables, ihx, ihy]

/-! ## Fuel stabilization: any fuel beyond the input length gives the same
parse, so the `length + 1` entry points compute what the source's
unbounded recursion computes. -/

theorem findOp_mem {cands : List (List Char)} {s op r : List Char}
    (h : findOp cands s = some (op, r)) : op ∈ cands := by
  induction cands with
  | nil => simp [findOp] at h
  | cons c cs ih =>
    simp only [findOp] at h
    split at h
    · simp only [Option.some.injEq, Prod.mk.injEq] at h
      simp [h.1]
    · simp [ih h]

theorem parsePrefixF_stable :
    ∀ n m s, s.length < n → s.length < m →
      parsePrefixF n s = parsePrefixF m s := by
  intro n
  induction n with
  | zero => intro m s h _; omega
  | succ n ih =>
    intro m s hn hm
    cases m with
    | zero => omega
    | succ m' =>
      cases s with
      | nil => rfl
      | cons c rest =>
        have hrn : rest.length < n := by
          simp only [List.length_cons] at hn; omega
        have hrm : rest.length < m' := by
          simp only [List.length_cons] at hm; omega
        have e1 := ih m' rest hrn hrm
        simp only [parsePrefixF]
        rw [e1]
        rcases hrec : parsePrefixF m' rest with ⟨of, ost⟩
        cases of with
        | none => rfl
        | some f =>
          obtain ⟨-, hs⟩ := parseF_sound m' rest f ost hrec
          have host : ost.length ≤ rest.length := by
            rw [← hs, List.length_append]; omega
          simp only [hrec]
          by_cases host0 : ost = []
          · simp [host0]
          · simp only [host0, if_false]
            rcases hfind : findOp opCandidates ost with - | ⟨op, ost1⟩
            · rfl
            · have hop : op ++ ost1 = ost := findOp_sound hfind
              have hopne : 1 ≤ op.length := by
                have hm' := findOp_mem hfind
                rcases (by simpa [opCandidates] using hm') with
                  rfl | rfl | rfl | rfl | rfl | rfl | rfl <;> simp
              have hlsum : ost.length = op.length + ost1.length := by
                rw [← hop, List.length_append]
              have h1 : ost1.length < n := by omega
              have h2 : ost1.length < m' := by omega
              have e2 := ih m' ost1 h1 h2
              simp [e2]

theorem tokenizeF_stable :
    ∀ n m s, s.length < n → s.length < m →
      tokenizeF n s = tokenizeF m s := by
  intro n
  induction n with
  | zero => intro m s h _; omega
  | succ n ih =>
    intro m s hn hm
    cases m with
    | zero => omega
    | succ m' =>
      cases s with
      | nil => rfl
      | cons c rest =>
        have hr : rest.length < n ∧ rest.length < m' := by
          simp only [List.length_cons] at hn hm; omega
        have e1 := ih m' rest hr.1 hr.2
        have e2 := ih m' (rest.drop 2)
          (by have := rest.length_drop 2; omega)
          (by have := rest.length_drop 2; omega)
        have e3 := ih m' (rest.drop 1)
          (by have := rest.length_drop 1; omega)
          (by have := rest.length_drop 1; omega)
        have e4 := ih m' (rest.dropWhile isDecChar)
          (by have := (List.dropWhile_suffix (l := rest) isDecChar).length_le; omega)
          (by have := (List.dropWhile_suffix (l := rest) isDecChar).length_le; omega)
        simp only [tokenizeF, e1, e2, e3, e4]

/-! ## The claims -/

/-- C1: for every `Formula` built via the constructor over the recognized
operator set, `Formula.parse(str(f)) == f`; and for every string `s` with
`Formula.is_formula(s)` true, `str(Formula.parse(s)) == s`. -/
theorem claim_C1_roundtrip :
    (∀ f : Formula, f.valid = true → Formula.parse f.rep = some f) ∧
    (∀ s : List Char, Formula.is_formula s = true →
      ∃ f, Formula.parse s = some f ∧ f.rep = s) :=
  ⟨fun _ hv => parse_rep hv,
   fun _ hs =>
     (is_formula_elim hs).elim fun f hf => ⟨f, hf.1, hf.2.2⟩⟩

/-- Witness for C1 at the tree `(p&q)` and at the text `"(p&q)"`. -/
theorem claim_C1_roundtrip_witness :
    Formula.parse (Formula.rep
        (.binary ['&'] (.atom ['p']) (.atom ['q']))) =
      some (.binary ['&'] (.atom ['p']) (.atom ['q'])) ∧
    ∃ f, Formula.parse (str "(p&q)") = some f ∧
      f.rep = str "(p&q)" :=
  ⟨claim_C1_roundtrip.1 _ (by decide), claim_C1_roundtrip.2 _ (by decide)⟩

/-- C2: `substitute_variables` with an empty substitution map returns a
tree structurally equal to the input (hence also equal under `__eq__`,
which compares serializations).  The operation itself is modelled from the
spec, its body being absent from the source. -/
theorem claim_C2_subst_empty :
    ∀ f : Formula, f.substitute_variables [] = f ∧
      Formula.eqb (f.substitute_variables []) f = true := by
  intro f
  refine ⟨substitute_variables_empty f, ?_⟩
  rw [substitute_variables_empty f]
  simp [Formula.eqb]

/-- C3: `parse("((x&y)&~z)").substitute_operators({"&": parse("~(~p|~q)")})`
is `parse("~(~~(~x|~y)|~~z)")`, and no `&` remains in the result's
serialization.  The operation itself is modelled from the spec, its body
being absent from the source. -/
theorem claim_C3_subst_operators :
    (Formula.parse (str "((x&y)&~z)")).map
        (fun f => f.substitute_operators
          [(['&'], (Formula.parse (str "~(~p|~q)")).getD (.atom ['p']))]) =
      Formula.parse (str "~(~~(~x|~y)|~~z)") ∧
    '&' ∉ (((Formula.parse (str "((x&y)&~z)")).getD
        (.atom ['p'])).substitute_operators
          [(['&'], (Formula.parse (str "~(~p|~q)")).getD (.atom ['p']))]).rep := by
  constructor
  · decide
  · decide

/-- C4: `parse_polish(polish(f)) == f` for every constructor-built tree,
and the reverse-order stack reduction makes the first pop operand 1
("now") and the second pop operand 2 ("next"), so `parse_polish("&pq")`
is `Binary('&', Variable p, Variable q)`. -/
theorem claim_C4_polish_roundtrip :
    (∀ f : Formula, f.valid = true →
      Formula.parse_polish f.polish = .ok f) ∧
    Formula.parse_polish (str "&pq") =
      .ok (.binary ['&'] (.atom ['p']) (.atom ['q'])) :=
  ⟨fun _ hv => parse_polish_polish hv, by decide⟩

/-- Witness for C4 at the tree `~p12`. -/
theorem claim_C4_polish_roundtrip_witness :
    Formula.parse_polish (Formula.polish
        (.unary ['~'] (.atom ['p', '1', '2']))) =
      .ok (.unary ['~'] (.atom ['p', '1', '2'])) :=
  claim_C4_polish_roundtrip.1 _ (by decide)

/-- C5: canonical serialization is injective on constructor-built trees,
so `__eq__` (string identity of serializations) coincides with structural
equality. -/
theorem claim_C5_serialization_injective :
    ∀ f g : Formula, f.valid = true → g.valid = true →
      ((f.rep = g.rep ↔ f = g) ∧ (Formula.eqb f g = true ↔ f = g)) := by
  intro f g hf hg
  constructor
  · exact ⟨rep_injective hf hg, fun h => by rw [h]⟩
  · simp only [Formula.eqb, beq_iff_eq]
    exact ⟨rep_injective hf hg, fun h => by rw [h]⟩

/-- Witness for C5 at the trees `p` and `T`. -/
theorem claim_C5_serialization_injective_witness :
    ((Formula.rep (.atom ['p']) = Formula.rep (.atom ['T']) ↔
      (Formula.atom ['p'] = .atom ['T'])) ∧
     (Formula.eqb (.atom ['p']) (.atom ['T']) = true ↔
      (Formula.atom ['p'] = .atom ['T']))) :=
  claim_C5_serialization_injective _ _ (by decide) (by decide)

/-- C6: `is_formula(text)` is true exactly when `_parse_prefix(text)`
returns a formula with an empty remainder; concretely `"(p&q)"` is a
formula while `"p&q"` and `"((p&q)"` are not. -/
theorem claim_C6_is_formula :
    (∀ s : List Char, Formula.is_formula s = true ↔
      ∃ f, parsePre s = (some f, [])) ∧
    Formula.is_formula (str "(p&q)") = true ∧
    Formula.is_formula (str "p&q") = false ∧
    Formula.is_formula (str "((p&q)") = false := by
  refine ⟨?_, by decide, by decide, by decide⟩
  intro s
  constructor
  · intro h
    rcases hp : parsePre s with ⟨of, ost⟩
    simp only [Formula.is_formula, hp, Bool.and_eq_true,
      Option.isSome_iff_exists, beq_iff_eq] at h
    obtain ⟨⟨f, rfl⟩, rfl⟩ := h
    exact ⟨f, rfl⟩
  · rintro ⟨f, hp⟩
    simp [Formula.is_formula, hp]

/-- Witness for C6: the equivalence instantiated at `"(p&q)"`. -/
theorem claim_C6_is_formula_witness :
    ∃ f, parsePre (str "(p&q)") = (some f, []) :=
  (claim_C6_is_formula.1 _).mp (by decide)

/-- C7 counterexample: the diagnostic `_parse_prefix("")` returns is
`'End of input'` (capital `E`), not the claimed `"end of input"`. -/
theorem claim_C7_counterexample :
    (parsePre []).2 ≠ str "end of input" := by decide

/-- C7 as amended: `_parse_prefix("q7&p")` returns the variable `q7` with
remainder `"&p"` (maximal munch), and `_parse_prefix("")` returns an
absent formula with the `'End of input'` diagnostic. -/
theorem claim_C7_amended :
    parsePre (str "q7&p") = (some (.atom ['q', '7']), str "&p") ∧
    parsePre [] = (none, str "End of input") := by
  constructor
  · decide
  · decide

/-- C8 counterexample: `is_variable("")` does not return a boolean — it
raises `IndexError` (embedded as `none`), refuting totality on every
string. -/
theorem claim_C8_counterexample : (is_variableT []).isSome = false := rfl

/-- C8 as amended: `is_variable` returns a boolean exactly on nonempty
strings (raising `IndexError` on the empty string), and on those strings
the total extension `is_variable` used by the rest of the development
agrees with it; `is_constant`, `is_unary` and `is_binary` are total by
construction (their bodies are pure equality tests). -/
theorem claim_C8_amended :
    ∀ s : List Char, ((is_variableT s).isSome = true ↔ s ≠ []) ∧
      (s ≠ [] → is_variableT s = some (is_variable s)) := by
  intro s
  constructor
  · cases s <;> simp [is_variableT]
  · exact is_variableT_eq

/-- Witness for C8 (amended) at the string `"p"`. -/
theorem claim_C8_amended_witness :
    is_variableT ['p'] = some (is_variable ['p']) :=
  (claim_C8_amended ['p']).2 (by decide)

/-- C9: `parse_polish` succeeds exactly on the well-formed Polish strings
(the Polish serializations of constructor-built trees), and reports —
rather than crashes on — an invalid symbol, an operator with missing
operands, and leftover content. -/
theorem claim_C9_polish_errors :
    (∀ s : List Char, (∃ f, Formula.parse_polish s = .ok f) ↔
      (∃ f : Formula, f.valid = true ∧ s = f.polish)) ∧
    Formula.parse_polish (str "a") = .error "Invalid symbol" ∧
    Formula.parse_polish (str "&p") = .error "Invalid" ∧
    Formula.parse_polish (str "pq") = .error "Invalid" := by
  refine ⟨?_, by decide, by decide, by decide⟩
  intro s
  constructor
  · rintro ⟨f, hf⟩
    obtain ⟨hv, hs⟩ := parse_polish_sound hf
    exact ⟨f, hv, hs.symm⟩
  · rintro ⟨f, hv, rfl⟩
    exact ⟨f, parse_polish_polish hv⟩

/-- Witness for C9: the equivalence instantiated at `"&pq"`. -/
theorem claim_C9_polish_errors_witness :
    ∃ f : Formula, f.valid = true ∧ str "&pq" = f.polish :=
  (claim_C9_polish_errors.1 _).mp
    ⟨.binary ['&'] (.atom ['p']) (.atom ['q']), by decide⟩

/-- C10: the recognized binary-operator set is exactly `{&, |, ->}`, and
each extended candidate (`<->`, `-&`, `-|`, `+`), though tokenized, is
rejected end-to-end: `_parse_prefix` answers `'Invalid operator'` and
`parse_polish` raises `ValueError('Invalid')`. -/
theorem claim_C10_extended_ops_rejected :
    (∀ s : List Char, is_binary s = true ↔
      (s = ['&'] ∨ s = ['|'] ∨ s = ['-', '>'])) ∧
    parsePre (str "(p<->q)") = (none, str "Invalid operator") ∧
    parsePre (str "(p-&q)") = (none, str "Invalid operator") ∧
    parsePre (str "(p-|q)") = (none, str "Invalid operator") ∧
    parsePre (str "(p+q)") = (none, str "Invalid operator") ∧
    Formula.parse_polish (str "<->pq") = .error "Invalid" ∧
    Formula.parse_polish (str "-&pq") = .error "Invalid" ∧
    Formula.parse_polish (str "-|pq") = .error "Invalid" ∧
    Formula.parse_polish (str "+pq") = .error "Invalid" := by
  refine ⟨?_, by decide, by decide, by decide, by decide, by decide,
    by decide, by decide, by decide⟩
  intro s
  exact ⟨is_binary_elim, by rintro (rfl | rfl | rfl) <;> decide⟩

/-- Witness for C10: the characterization instantiated at `'&'`. -/
theorem claim_C10_extended_ops_rejected_witness :
    is_binary ['&'] = true :=
  (claim_C10_extended_ops_rejected.1 ['&']).mpr (Or.inl rfl)

end Propositions
